import Mathlib

/-!
Verification of the exponential backoff ticker (`ticker.go`).


The Go package offers `NewTicker`, `MustNewTicker`, the scheduling loop `run`
with its helper `tick`, and `Stop`.  This file embeds them in Lean:

* `time.Duration` is a signed integer count of nanoseconds (`Int`); the places
  where the 64 bit range matters are explicit (`F32.toInt64`).
* `float32` is modelled exactly as IEEE 754 binary32: a value is NaN, an
  infinity, or a signed magnitude `m * 2 ^ e`; conversion from an integer and
  multiplication round to a 24 bit significand, nearest, ties to even.
* channels are records (capacity, number of buffered elements, closed flag)
  living in a list indexed by handle, so that `C` and `c` can denote the same
  channel.
* the goroutine executing `run` is driven by the list of wake-ups its `select`
  receives.
-/

set_option maxRecDepth 8000

namespace Backoff

/-! Section: IEEE 754 binary32 -/

/-- Binary length of `n`, by halving; the first argument bounds the depth. -/
def bitLenFrom : Nat → Nat → Nat
  | 0, _ => 0
  | fuel + 1, n => if n = 0 then 0 else bitLenFrom fuel (n / 2) + 1

/-- Number of binary digits of `n` (`0` for `0`). -/
def bitLen (n : Nat) : Nat := bitLenFrom n n

/-- The integer nearest to `n / 2 ^ s`, ties going to the even neighbour. -/
def rne (n s : Nat) : Nat :=
  let q := n / 2 ^ s
  let r := n % 2 ^ s
  if 2 * r < 2 ^ s then q
  else if 2 ^ s < 2 * r then q + 1
  else if q % 2 = 0 then q else q + 1

/-- A `float32`: NaN, plus or minus infinity, or the finite value
`(-1) ^ neg * m * 2 ^ e`. -/
inductive F32 where
  | nan
  | inf (neg : Bool)
  | fin (neg : Bool) (m : Nat) (e : Int)
deriving DecidableEq

namespace F32

/-- Rounding of the exact value `(-1) ^ neg * n * 2 ^ e` to binary32: the
significand keeps 24 bits (fewer below `2 ^ (-126)`, where the spacing stays
`2 ^ (-149)`), and a rounded magnitude of `2 ^ 128` or more is an infinity. -/
def round (neg : Bool) (n : Nat) (e : Int) : F32 :=
  let s := max (bitLen n - 24) (-149 - e).toNat
  let q := rne n s
  let e2 := e + s
  if 2 ^ 24 * 2 ^ (104 - e2).toNat ≤ q * 2 ^ (e2 - 104).toNat then inf neg else fin neg q e2

/-- The conversion `float32(c)` of an integer. -/
def ofInt (c : Int) : F32 := round (decide (c < 0)) c.natAbs 0

/-- The product of two `float32` values. -/
def mul : F32 → F32 → F32
  | nan, _ => nan
  | _, nan => nan
  | inf a, inf b => inf (xor a b)
  | inf a, fin b m _ => if m = 0 then nan else inf (xor a b)
  | fin a m _, inf b => if m = 0 then nan else inf (xor a b)
  | fin a m e, fin b m2 e2 => round (xor a b) (m * m2) (e + e2)

/-- The signed significand of a finite value. -/
def signed (neg : Bool) (m : Nat) : Int := if neg then -(m : Int) else (m : Int)

/-- The comparison `x <= y` of two `float32` values; false when either is NaN. -/
def le : F32 → F32 → Bool
  | nan, _ => false
  | _, nan => false
  | inf a, inf b => a || !b
  | inf a, fin _ _ _ => a
  | fin _ _ _, inf b => !b
  | fin a m e, fin b m2 e2 =>
    decide (signed a m * ((2 ^ (e - e2).toNat : Nat) : Int)
      ≤ signed b m2 * ((2 ^ (e2 - e).toNat : Nat) : Int))

/-- The comparison `x > y` of two `float32` values; false when either is NaN. -/
def gt (x y : F32) : Bool := le y x && !le x y

/-- The constant `1`. -/
def one : F32 := fin false 1 0

/-- Truncation toward zero of a finite value; nothing for NaN and infinities. -/
def trunc : F32 → Option Int
  | fin neg m e => some (signed neg (m * 2 ^ e.toNat / 2 ^ (-e).toNat))
  | _ => none

/-- The value is finite and its truncation is an `int64`. -/
def inRange (x : F32) : Bool :=
  match x.trunc with
  | some v => decide (-9223372036854775808 ≤ v ∧ v < 9223372036854775808)
  | none => false

/-- The conversion `time.Duration(x)` of a `float32` to `int64`: truncation
toward zero when the result fits.  Otherwise Go leaves the result to the
implementation; `oor` is what the platform delivers. -/
def toInt64 (oor : F32 → Int) (x : F32) : Int :=
  match x.trunc with
  | some v => if -9223372036854775808 ≤ v ∧ v < 9223372036854775808 then v else oor x
  | none => oor x

/-- The rational number a finite value denotes (`0` for NaN and infinities). -/
def toRat : F32 → ℚ
  | fin neg m e => (signed neg m : ℚ) * (2 : ℚ) ^ e
  | _ => 0

/-- The representation is that of a value a `float32` variable can hold: NaN,
an infinity, or a magnitude `m * 2 ^ e` with `m < 2 ^ 24`, `e ≥ -149`, below
`2 ^ 128`.  Every `float32` value has such a representation. -/
def isBinary32 : F32 → Bool
  | fin _ m e => decide (m < 2 ^ 24) && decide (-149 ≤ e) && (m == 0 || decide (e + bitLen m ≤ 128))
  | _ => true

end F32

/-- Out-of-range conversion on amd64: `CVTTSS2SQ` delivers the integer
indefinite value `0x8000000000000000` for NaN, infinities and values outside
`int64`. -/
def amd64 : F32 → Int := fun _ => -9223372036854775808

/-! Section: Channels -/

/-- A channel of `struct{}`: capacity, number of buffered elements, closed flag. -/
structure Chan where
  cap : Nat
  len : Nat
  closed : Bool
deriving DecidableEq

/-- Outcome of trying a send. -/
inductive SendResult where
  | sent (ch : Chan)
  | wouldBlock
  | panicked
deriving DecidableEq

/-- Outcome of trying a receive `v, ok := <-ch`: an element with `ok = true`,
the zero value with `ok = false`, or nothing yet. -/
inductive RecvResult where
  | value (ch : Chan)
  | exhausted
  | wouldBlock
deriving DecidableEq

namespace Chan

/-- The call `make(chan struct{}, cap)`. -/
def make (cap : Nat) : Chan := { cap := cap, len := 0, closed := false }

/-- A send with no receiver waiting: it panics on a closed channel, stores the
element when the buffer has room, and cannot proceed otherwise. -/
def send (ch : Chan) : SendResult :=
  if ch.closed then .panicked
  else if ch.len < ch.cap then .sent { ch with len := ch.len + 1 }
  else .wouldBlock

/-- A receive: buffered elements come first, also on a closed channel; an
empty closed channel yields `ok = false`; an empty open one makes the reader wait. -/
def recv (ch : Chan) : RecvResult :=
  if 0 < ch.len then .value { ch with len := ch.len - 1 }
  else if ch.closed then .exhausted
  else .wouldBlock

/-- The call `close(ch)`; closing twice panics (`none`). -/
def close (ch : Chan) : Option Chan :=
  if ch.closed then none else some { ch with closed := true }

end Chan

/-! Section: The ticker -/

/-- The struct `Ticker`; channels are handles into the list of channels. -/
structure Ticker where
  C : Nat
  c : Nat
  min : Int
  max : Int
  factor : F32
  current : Int
  shutChan : Nat
deriving DecidableEq

/-- What exists besides the caller: the channels made so far and the tickers
whose `run` goroutine has been started. -/
structure Runtime where
  chans : List Chan
  tasks : List Ticker
deriving DecidableEq

/-- The pair `(*Ticker, error)` that `NewTicker` returns; `none` is `nil`. -/
structure NewTickerResult where
  ticker : Option Ticker
  err : Option String
deriving DecidableEq

/-- The constructor `NewTicker(min, max, factor)`.  The checks come first and
return before anything is made; then the two channels are made, the struct is
filled in and the goroutine running `run` is started.  `fmtDuration` is the
standard library rendering of a duration by `%v`. -/
def NewTicker (fmtDuration : Int → String) (rt : Runtime) (min max : Int) (factor : F32) :
    NewTickerResult × Runtime :=
  if min ≤ 0 then
    (⟨none, some ("non-positive min backoff interval of " ++ fmtDuration min
      ++ " specified for ticker")⟩, rt)
  else if max < min ∧ max ≠ 0 then
    (⟨none, some ("non-positive max backoff interval of " ++ fmtDuration max
      ++ " specified for ticker")⟩, rt)
  else if F32.le factor F32.one then
    (⟨none, some "zero backoff factor specified for ticker"⟩, rt)
  else
    let c := rt.chans.length
    let shutChan := rt.chans.length + 1
    let ticker : Ticker :=
      { C := c, c := c, min := min, max := max, current := min, factor := factor,
        shutChan := shutChan }
    (⟨some ticker, none⟩,
      { chans := rt.chans ++ [Chan.make 1, Chan.make 0], tasks := rt.tasks ++ [ticker] })

/-- Outcome of `MustNewTicker`: the returned pointer (`none` is `nil`), or a
panic with its message. -/
inductive MustResult where
  | returned (t : Option Ticker)
  | panicked (msg : String)
deriving DecidableEq

/-- The function `MustNewTicker(min, max, factor)`: it calls `NewTicker` and
panics when the error is not nil. -/
def MustNewTicker (fmtDuration : Int → String) (rt : Runtime) (min max : Int) (factor : F32) :
    MustResult × Runtime :=
  match NewTicker fmtDuration rt min max factor with
  | (⟨_, some err⟩, rt2) => (.panicked ("backoff timer init error: " ++ err), rt2)
  | (⟨ticker, none⟩, rt2) => (.returned ticker, rt2)

/-- The arguments `NewTicker` is documented to accept: `min > 0`, `max` zero or
at least `min`, `factor > 1`. -/
def ValidArgs (min max : Int) (factor : F32) : Prop :=
  0 < min ∧ (max = 0 ∨ min ≤ max) ∧ F32.gt factor F32.one = true

namespace Ticker

/-- The method `t.tick()`: a `select` with a send on `t.c` and a `default` case.  The
result is the list of channels afterwards; `none` is a panic (send on a closed
channel).  A handle without channel behaves as a nil channel: never ready. -/
def tick (t : Ticker) (chans : List Chan) : Option (List Chan) :=
  match chans[t.c]? with
  | none => some chans
  | some ch =>
    match ch.send with
    | .sent ch2 => some (chans.set t.c ch2)
    | .wouldBlock => some chans
    | .panicked => none

/-- The value `float32(t.current) * t.factor` computed in `run`. -/
def product (t : Ticker) : F32 := F32.mul (F32.ofInt t.current) t.factor

/-- The value `run` stores into `t.current` at the end of a round:
`time.Duration(float32(t.current) * t.factor)`, replaced by `t.max` when
`t.max > 0` and the value exceeds it. -/
def newTime (oor : F32 → Int) (t : Ticker) : Int :=
  let newTime := F32.toInt64 oor t.product
  if 0 < t.max ∧ t.max < newTime then t.max else newTime

/-- Which case of the `select` in `run` fires: `shut` is the receive from
`t.shutChan`, `timer` the receive from `time.After(t.current)`. -/
inductive Wake where
  | shut
  | timer
deriving DecidableEq

/-- The deferred `close(t.c)` of `run`. -/
def closeC (t : Ticker) (chans : List Chan) : Option (List Chan) :=
  match chans[t.c]? with
  | none => none
  | some ch =>
    match ch.close with
    | none => none
    | some ch2 => some (chans.set t.c ch2)

/-- The method `t.run()`, driven by the wake-ups of its `select`.  The result holds the
ticker, the channels and whether `run` has returned (`false`: it is waiting in
the `select`); `none` is a panic. -/
def run (oor : F32 → Int) : List Wake → Ticker → List Chan → Option (Ticker × List Chan × Bool)
  | [], t, chans => some (t, chans, false)
  | .shut :: _, t, chans =>
    match t.closeC chans with
    | none => none
    | some chans2 => some (t, chans2, true)
  | .timer :: ws, t, chans =>
    match t.tick chans with
    | none => none
    | some chans2 => run oor ws { t with current := t.newTime oor } chans2

/-- The method `t.Stop()`: a send on the unbuffered `t.shutChan`.  It completes by meeting
the receive in the `select` of `run`, which is the wake-up `shut`; with no
`run` waiting (`running = false`) the send never completes (`none`). -/
def Stop (_t : Ticker) (running : Bool) : Option Wake :=
  if running then some .shut else none

/-- The fields of the ticker after `n` rounds of `run`. -/
def after (oor : F32 → Int) (t : Ticker) : Nat → Ticker
  | 0 => t
  | n + 1 => let u := after oor t n; { u with current := u.newTime oor }

/-- A read `_, ok := <-t.C` by the consumer: the outcome and the channels
afterwards. -/
def read (t : Ticker) (chans : List Chan) : RecvResult × List Chan :=
  match chans[t.C]? with
  | none => (.wouldBlock, chans)
  | some ch =>
    match ch.recv with
    | .value ch2 => (.value ch2, chans.set t.C ch2)
    | r => (r, chans)

end Ticker

theorem bitLenFrom_spec (fuel : Nat) : ∀ n : Nat, n ≤ fuel → n ≠ 0 →
    2 ^ (bitLenFrom fuel n - 1) ≤ n ∧ n < 2 ^ bitLenFrom fuel n := by
  induction fuel with
  | zero => intro n h hn; omega
  | succ k ih =>
    intro n h hn
    rw [bitLenFrom, if_neg hn]
    by_cases h2 : n / 2 = 0
    · have h1 : n = 1 := by omega
      subst h1
      cases k <;> simp [bitLenFrom]
    · have hle : n / 2 ≤ k := by omega
      obtain ⟨ha, hb⟩ := ih (n / 2) hle h2
      have hpos : 1 ≤ bitLenFrom k (n / 2) := by
        cases k with
        | zero => omega
        | succ j => rw [bitLenFrom, if_neg h2]; omega
      constructor
      · have e1 : bitLenFrom k (n / 2) + 1 - 1 = (bitLenFrom k (n / 2) - 1) + 1 := by omega
        rw [e1, pow_succ]
        omega
      · rw [pow_succ]
        omega

theorem bitLen_lt (n : Nat) : n < 2 ^ bitLen n := by
  by_cases hn : n = 0
  · subst hn; simp [bitLen, bitLenFrom]
  · exact (bitLenFrom_spec n n le_rfl hn).2

theorem bitLen_le (n : Nat) (hn : n ≠ 0) : 2 ^ (bitLen n - 1) ≤ n :=
  (bitLenFrom_spec n n le_rfl hn).1

theorem rne_zero (n : Nat) : rne n 0 = n := by
  unfold rne
  simp only [pow_zero, Nat.mod_one, Nat.div_one]
  simp

theorem div_le_rne (n s : Nat) : n / 2 ^ s ≤ rne n s := by
  unfold rne
  simp only
  split_ifs <;> omega

theorem rne_le_div_succ (n s : Nat) : rne n s ≤ n / 2 ^ s + 1 := by
  unfold rne
  simp only
  split_ifs <;> omega

/-- Rounding moves a number by at most half a unit of the last kept digit. -/
theorem le_rne_mul (n s : Nat) : 2 * n ≤ 2 * (rne n s * 2 ^ s) + 2 ^ s := by
  have hdm := Nat.div_add_mod n (2 ^ s)
  have hmul : 2 ^ s * (n / 2 ^ s) = n / 2 ^ s * 2 ^ s := Nat.mul_comm _ _
  unfold rne
  simp only
  split_ifs with h1 h2 h3
  · omega
  · rw [Nat.add_mul]; omega
  · omega
  · rw [Nat.add_mul]; omega

theorem rne_mul_le (n s : Nat) : 2 * (rne n s * 2 ^ s) ≤ 2 * n + 2 ^ s := by
  have hdm := Nat.div_add_mod n (2 ^ s)
  have hmul : 2 ^ s * (n / 2 ^ s) = n / 2 ^ s * 2 ^ s := Nat.mul_comm _ _
  have hlt : n % 2 ^ s < 2 ^ s := Nat.mod_lt _ (by positivity)
  unfold rne
  simp only
  split_ifs with h1 h2 h3
  · omega
  · rw [Nat.add_mul]; omega
  · omega
  · rw [Nat.add_mul]; omega

/-- A representable number below the exact value stays below the rounded one. -/
theorem le_rne_zpow (N s k : ℕ) (E t : ℤ) (hs : s = 0 ∨ 2 ^ (23 + s) ≤ N) (hk : k ≤ 2 ^ 24)
    (h : (k : ℚ) * 2 ^ t ≤ (N : ℚ) * 2 ^ E) :
    (k : ℚ) * 2 ^ t ≤ (rne N s : ℚ) * 2 ^ (E + (s : ℤ)) := by
  have h20 : (2 : ℚ) ≠ 0 := by norm_num
  rcases hs with rfl | hs
  · simpa [rne_zero] using h
  · by_cases hts : E + (s : ℤ) ≤ t
    · obtain ⟨d, hd⟩ : ∃ d : ℕ, t = E + (s : ℤ) + (d : ℤ) := ⟨(t - (E + s)).toNat, by omega⟩
      subst hd
      have h2E : (0 : ℚ) < 2 ^ E := by positivity
      have e1 : (k : ℚ) * 2 ^ (E + (s : ℤ) + (d : ℤ)) = ((k * 2 ^ d * 2 ^ s : ℕ) : ℚ) * 2 ^ E := by
        push_cast
        rw [zpow_add₀ h20, zpow_add₀ h20, zpow_natCast, zpow_natCast]
        ring
      rw [e1] at h
      have h3 : ((k * 2 ^ d * 2 ^ s : ℕ) : ℚ) ≤ (N : ℚ) := le_of_mul_le_mul_right h h2E
      have h4 : k * 2 ^ d * 2 ^ s ≤ N := by exact_mod_cast h3
      have h5 : k * 2 ^ d ≤ N / 2 ^ s := (Nat.le_div_iff_mul_le (by positivity)).2 h4
      have h6 : k * 2 ^ d ≤ rne N s := le_trans h5 (div_le_rne N s)
      have e2 : (k : ℚ) * 2 ^ (E + (s : ℤ) + (d : ℤ)) = ((k * 2 ^ d : ℕ) : ℚ) * 2 ^ (E + (s : ℤ)) := by
        push_cast
        rw [zpow_add₀ h20 (E + (s : ℤ)), zpow_natCast]
        ring
      rw [e2]
      exact mul_le_mul_of_nonneg_right (by exact_mod_cast h6) (by positivity)
    · have ht : t + 1 ≤ E + (s : ℤ) := by omega
      have hq : 2 ^ 23 ≤ rne N s := by
        have h5 : 2 ^ 23 ≤ N / 2 ^ s :=
          (Nat.le_div_iff_mul_le (by positivity)).2 (by rw [← pow_add]; exact hs)
        exact le_trans h5 (div_le_rne N s)
      have hkq : (k : ℚ) ≤ 2 ^ 24 := by exact_mod_cast hk
      have hqq : (2 : ℚ) ^ 23 ≤ (rne N s : ℚ) := by exact_mod_cast hq
      have hpos : (0 : ℚ) < 2 ^ t := by positivity
      calc (k : ℚ) * 2 ^ t ≤ 2 ^ 24 * 2 ^ t := mul_le_mul_of_nonneg_right hkq hpos.le
        _ = 2 ^ 23 * 2 ^ (t + 1) := by rw [zpow_add_one₀ h20]; ring
        _ ≤ 2 ^ 23 * 2 ^ (E + (s : ℤ)) :=
          mul_le_mul_of_nonneg_left (zpow_le_zpow_right₀ (by norm_num) ht) (by positivity)
        _ ≤ (rne N s : ℚ) * 2 ^ (E + (s : ℤ)) :=
          mul_le_mul_of_nonneg_right hqq (by positivity)

/-- An integer below a finite value is below its truncation. -/
theorem le_trunc_nat (a q : ℕ) (e : ℤ) (h : (a : ℚ) ≤ (q : ℚ) * 2 ^ e) :
    a ≤ q * 2 ^ e.toNat / 2 ^ (-e).toNat := by
  rcases le_total 0 e with he | he
  · obtain ⟨n, rfl⟩ := Int.eq_ofNat_of_zero_le he
    have e1 : (-(n : ℤ)).toNat = 0 := by omega
    rw [e1, Int.toNat_ofNat, pow_zero, Nat.div_one]
    rw [zpow_natCast] at h
    exact_mod_cast h
  · obtain ⟨n, hn⟩ : ∃ n : ℕ, e = -(n : ℤ) := ⟨(-e).toNat, by omega⟩
    subst hn
    have e1 : (-(n : ℤ)).toNat = 0 := by omega
    rw [e1, neg_neg, Int.toNat_ofNat, pow_zero, mul_one]
    rw [Nat.le_div_iff_mul_le (by positivity)]
    rw [zpow_neg, zpow_natCast] at h
    have hpos : (0 : ℚ) < 2 ^ n := by positivity
    have h2 : (a : ℚ) * 2 ^ n ≤ (q : ℚ) := by
      calc (a : ℚ) * 2 ^ n ≤ (q : ℚ) * (2 ^ n)⁻¹ * 2 ^ n := mul_le_mul_of_nonneg_right h hpos.le
        _ = q := by field_simp
    exact_mod_cast h2

/-- A `float32` above one is at least `1 + 2 ^ (-23)`. -/
theorem next_above_one (m : ℕ) (e : ℤ) (hm : m < 2 ^ 24) (h1 : (1 : ℚ) < (m : ℚ) * 2 ^ e) :
    (1 : ℚ) + 2 ^ (-23 : ℤ) ≤ (m : ℚ) * 2 ^ e := by
  have h20 : (2 : ℚ) ≠ 0 := by norm_num
  by_cases he : -23 ≤ e
  · obtain ⟨j, hj⟩ : ∃ j : ℕ, e = (j : ℤ) + (-23) := ⟨(e + 23).toNat, by omega⟩
    subst hj
    have e1 : (m : ℚ) * 2 ^ ((j : ℤ) + (-23)) = ((m * 2 ^ j : ℕ) : ℚ) * 2 ^ (-23 : ℤ) := by
      push_cast
      rw [zpow_add₀ h20, zpow_natCast]
      ring
    rw [e1] at h1 ⊢
    have hp : (0 : ℚ) < 2 ^ (-23 : ℤ) := by positivity
    have h2 : (2 : ℚ) ^ 23 < ((m * 2 ^ j : ℕ) : ℚ) := by
      have h3 : (2 : ℚ) ^ 23 * 2 ^ (-23 : ℤ) = 1 := by norm_num
      by_contra hcon
      push_neg at hcon
      have := mul_le_mul_of_nonneg_right hcon hp.le
      rw [h3] at this
      linarith
    have h4 : 2 ^ 23 + 1 ≤ m * 2 ^ j := by exact_mod_cast h2
    have h5 : ((2 ^ 23 + 1 : ℕ) : ℚ) ≤ ((m * 2 ^ j : ℕ) : ℚ) := by exact_mod_cast h4
    have h6 := mul_le_mul_of_nonneg_right h5 hp.le
    have h7 : ((2 ^ 23 + 1 : ℕ) : ℚ) * 2 ^ (-23 : ℤ) = 1 + 2 ^ (-23 : ℤ) := by norm_num
    rw [h7] at h6
    exact h6
  · exfalso
    have he2 : e ≤ -24 := by omega
    have hmq : (m : ℚ) ≤ 2 ^ 24 := by exact_mod_cast hm.le
    have hle : (2 : ℚ) ^ e ≤ 2 ^ (-24 : ℤ) := zpow_le_zpow_right₀ (by norm_num) he2
    have hp : (0 : ℚ) ≤ 2 ^ e := by positivity
    have : (m : ℚ) * 2 ^ e ≤ 2 ^ 24 * 2 ^ (-24 : ℤ) :=
      mul_le_mul hmq hle hp (by positivity)
    have h3 : (2 : ℚ) ^ 24 * 2 ^ (-24 : ℤ) = 1 := by norm_num
    linarith

/-- Between the integer `c` (plus the growth `d` it is known to have) and the
exact product of `float32(c)` with the factor lies a representable number. -/
theorem repr_between (c d mf : ℕ) (ef : ℤ) (hc : 0 < c) (hd1 : d ≤ 1) (hm : mf < 2 ^ 24)
    (h1 : (1 : ℚ) < (mf : ℚ) * 2 ^ ef) (hd : (c : ℚ) + d ≤ c * ((mf : ℚ) * 2 ^ ef)) :
    ∃ k t : ℕ, k ≤ 2 ^ 24 ∧ c + d ≤ k * 2 ^ t ∧
      (k : ℚ) * 2 ^ (t : ℤ) ≤
        ((rne c (bitLen c - 24) * mf : ℕ) : ℚ) * 2 ^ (((bitLen c - 24 : ℕ) : ℤ) + ef) := by
  have h20 : (2 : ℚ) ≠ 0 := by norm_num
  have hlt := bitLen_lt c
  have hle := bitLen_le c (by omega)
  have hf := next_above_one mf ef hm h1
  generalize hs1 : bitLen c - 24 = s1 at *
  by_cases hs : s1 = 0
  · have hc24 : c < 2 ^ 24 :=
      lt_of_lt_of_le hlt (Nat.pow_le_pow_right (by norm_num) (by omega))
    refine ⟨c + d, 0, by omega, by simp, ?_⟩
    subst hs
    rw [rne_zero]
    push_cast
    simp only [zpow_zero, mul_one, zero_add]
    rw [mul_assoc]
    exact hd
  · have hb : bitLen c - 1 = s1 + 23 := by omega
    have hb2 : bitLen c = s1 + 24 := by omega
    rw [hb] at hle
    rw [hb2] at hlt
    have hP : 0 < 2 ^ s1 := by positivity
    have hq23 : 2 ^ 23 ≤ rne c s1 := by
      have h5 : 2 ^ 23 ≤ c / 2 ^ s1 :=
        (Nat.le_div_iff_mul_le hP).2 (by rw [← pow_add]; rw [Nat.add_comm]; exact hle)
      exact le_trans h5 (div_le_rne c s1)
    have hq24 : rne c s1 ≤ 2 ^ 24 := by
      have h5 : c / 2 ^ s1 < 2 ^ 24 := by
        rw [Nat.div_lt_iff_lt_mul hP, ← pow_add, Nat.add_comm]
        exact hlt
      have := rne_le_div_succ c s1
      omega
    have hhalf := le_rne_mul c s1
    have hq23q : (2 : ℚ) ^ 23 ≤ (rne c s1 : ℚ) := by exact_mod_cast hq23
    have hqpos : (0 : ℚ) ≤ (rne c s1 : ℚ) := Nat.cast_nonneg _
    by_cases hq : rne c s1 < 2 ^ 24
    · refine ⟨rne c s1 + 1, s1, by omega, ?_, ?_⟩
      · rw [Nat.add_mul, one_mul]
        omega
      · have h3 : (1 : ℚ) ≤ (rne c s1 : ℚ) * 2 ^ (-23 : ℤ) := by
          have h4 : (2 : ℚ) ^ 23 * 2 ^ (-23 : ℤ) = 1 := by norm_num
          rw [← h4]
          exact mul_le_mul_of_nonneg_right hq23q (by positivity)
        have h5 : (rne c s1 : ℚ) * (1 + 2 ^ (-23 : ℤ)) ≤ (rne c s1 : ℚ) * ((mf : ℚ) * 2 ^ ef) :=
          mul_le_mul_of_nonneg_left hf hqpos
        have h6 : (rne c s1 : ℚ) + 1 ≤ (rne c s1 : ℚ) * ((mf : ℚ) * 2 ^ ef) := by linarith
        push_cast
        rw [zpow_add₀ h20, zpow_natCast]
        have hPq : (0 : ℚ) ≤ 2 ^ s1 := by positivity
        calc ((rne c s1 : ℚ) + 1) * 2 ^ s1
            ≤ ((rne c s1 : ℚ) * ((mf : ℚ) * 2 ^ ef)) * 2 ^ s1 :=
              mul_le_mul_of_nonneg_right h6 hPq
          _ = (rne c s1 : ℚ) * (mf : ℚ) * (2 ^ s1 * 2 ^ ef) := by ring
    · have hq2 : rne c s1 = 2 ^ 24 := by omega
      refine ⟨2 ^ 24, s1, le_rfl, ?_, ?_⟩
      · have e1 : (2 : ℕ) ^ 24 * 2 ^ s1 = 2 ^ (s1 + 24) := by rw [← pow_add, Nat.add_comm]
        rw [e1]
        omega
      · rw [hq2]
        push_cast
        rw [zpow_add₀ h20, zpow_natCast]
        have hPq : (0 : ℚ) ≤ 2 ^ 24 * 2 ^ s1 := by positivity
        calc (2 : ℚ) ^ 24 * 2 ^ s1 = (2 ^ 24 * 2 ^ s1) * 1 := by ring
          _ ≤ (2 ^ 24 * 2 ^ s1) * ((mf : ℚ) * 2 ^ ef) :=
              mul_le_mul_of_nonneg_left h1.le hPq
          _ = 2 ^ 24 * (mf : ℚ) * (2 ^ s1 * 2 ^ ef) := by ring

theorem round_cases (neg : Bool) (n : ℕ) (e : ℤ) :
    F32.round neg n e = F32.inf neg ∨
      F32.round neg n e =
        F32.fin neg (rne n (max (bitLen n - 24) (-149 - e).toNat))
          (e + ((max (bitLen n - 24) (-149 - e).toNat : ℕ) : ℤ)) := by
  unfold F32.round
  simp only
  split_ifs
  · exact Or.inl rfl
  · exact Or.inr rfl

theorem bitLen_zero : bitLen 0 = 0 := by
  simp [bitLen, bitLenFrom]

/-- The conversion of the product to an integer is at least `c + d` whenever the
exact product is, for a positive integer `c` and a `float32` factor above one. -/
theorem trunc_product_ge (c d mf : ℕ) (ef : ℤ) (hc : 0 < c) (hd1 : d ≤ 1) (hm : mf < 2 ^ 24)
    (he : -149 ≤ ef) (h1 : (1 : ℚ) < (mf : ℚ) * 2 ^ ef)
    (hd : (c : ℚ) + d ≤ c * ((mf : ℚ) * 2 ^ ef)) (v : ℤ)
    (hv : (F32.mul (F32.ofInt (c : ℤ)) (F32.fin false mf ef)).trunc = some v) :
    ((c + d : ℕ) : ℤ) ≤ v := by
  obtain ⟨k, t, hk, hck, hkt⟩ := repr_between c d mf ef hc hd1 hm h1 hd
  have hneg : decide ((c : ℤ) < 0) = false := by simp
  have hs0 : (-149 - (0 : ℤ)).toNat = 0 := by decide
  unfold F32.ofInt at hv
  rw [hneg, Int.natAbs_ofNat] at hv
  rcases round_cases false c 0 with h | h
  · rw [h] at hv
    simp only [F32.mul] at hv
    split_ifs at hv <;> simp [F32.trunc] at hv
  · rw [h, hs0, Nat.max_zero] at hv
    simp only [F32.mul, Bool.xor_self, Bool.xor_false, zero_add] at hv
    generalize hs1 : bitLen c - 24 = s1 at *
    have hE : (-149 - ((s1 : ℤ) + ef)).toNat = 0 := by omega
    rcases round_cases false (rne c s1 * mf) ((s1 : ℤ) + ef) with h2 | h2
    · rw [h2] at hv
      simp [F32.trunc] at hv
    · rw [h2, hE, Nat.max_zero] at hv
      simp only [F32.trunc, F32.signed, Option.some.injEq] at hv
      generalize hs2 : bitLen (rne c s1 * mf) - 24 = s2 at *
      have hs : s2 = 0 ∨ 2 ^ (23 + s2) ≤ rne c s1 * mf := by
        by_cases hz : s2 = 0
        · exact Or.inl hz
        · right
          have hne : rne c s1 * mf ≠ 0 := by
            intro h0
            rw [h0, bitLen_zero] at hs2
            omega
          have := bitLen_le _ hne
          have e1 : bitLen (rne c s1 * mf) - 1 = 23 + s2 := by omega
          rw [e1] at this
          exact this
      have hR := le_rne_zpow (rne c s1 * mf) s2 k ((s1 : ℤ) + ef) t hs hk hkt
      have hT := le_trunc_nat (k * 2 ^ t) (rne (rne c s1 * mf) s2) ((s1 : ℤ) + ef + (s2 : ℤ))
        (by push_cast; rw [← zpow_natCast]; exact hR)
      rw [← hv]
      simp only [Bool.false_eq_true, if_false]
      exact_mod_cast le_trans hck hT

theorem gt_one_cases (f : F32) (h : F32.gt f F32.one = true) :
    f = F32.inf false ∨ ∃ m e, f = F32.fin false m e ∧ (1 : ℚ) < (m : ℚ) * 2 ^ e := by
  cases f with
  | nan => simp [F32.gt, F32.le, F32.one] at h
  | inf neg =>
    cases neg
    · exact Or.inl rfl
    · simp [F32.gt, F32.le, F32.one] at h
  | fin neg m e =>
    right
    simp only [F32.gt, F32.le, F32.one, Bool.and_eq_true, decide_eq_true_eq, Bool.not_eq_true',
      decide_eq_false_iff_not, not_le, sub_zero, zero_sub] at h
    obtain ⟨-, h2⟩ := h
    cases neg with
    | true =>
      exfalso
      simp only [F32.signed, if_true, if_false, Bool.false_eq_true, Nat.cast_one, one_mul,
        neg_mul] at h2
      have hp : (0 : ℤ) < ((2 ^ (-e).toNat : ℕ) : ℤ) := by positivity
      have hq : (0 : ℤ) ≤ (m : ℤ) * ((2 ^ e.toNat : ℕ) : ℤ) := by positivity
      linarith
    | false =>
      refine ⟨m, e, rfl, ?_⟩
      simp only [F32.signed, if_false, Bool.false_eq_true, Nat.cast_one, one_mul] at h2
      rcases le_total 0 e with he | he
      · obtain ⟨n, rfl⟩ := Int.eq_ofNat_of_zero_le he
        have e1 : (-(n : ℤ)).toNat = 0 := by omega
        rw [e1, Int.toNat_ofNat, pow_zero] at h2
        rw [zpow_natCast]
        exact_mod_cast h2
      · obtain ⟨n, hn⟩ : ∃ n : ℕ, e = -(n : ℤ) := ⟨(-e).toNat, by omega⟩
        subst hn
        have e1 : (-(n : ℤ)).toNat = 0 := by omega
        rw [e1, neg_neg, Int.toNat_ofNat, pow_zero, Nat.cast_one, mul_one] at h2
        rw [zpow_neg, zpow_natCast]
        have hpos : (0 : ℚ) < 2 ^ n := by positivity
        have h3 : (2 : ℚ) ^ n < (m : ℚ) := by exact_mod_cast h2
        rw [lt_mul_inv_iff₀ hpos]
        linarith

theorem inRange_iff (x : F32) :
    x.inRange = true ↔
      ∃ v, x.trunc = some v ∧ -9223372036854775808 ≤ v ∧ v < 9223372036854775808 := by
  unfold F32.inRange
  cases x.trunc with
  | none => simp
  | some v => simp

theorem toInt64_of_trunc (oor : F32 → ℤ) (x : F32) (v : ℤ) (hv : x.trunc = some v)
    (h1 : -9223372036854775808 ≤ v) (h2 : v < 9223372036854775808) :
    F32.toInt64 oor x = v := by
  unfold F32.toInt64
  rw [hv]
  simp [h1, h2]

theorem toInt64_of_inRange (oor : F32 → ℤ) (x : F32) (h : x.inRange = true) :
    x.trunc = some (F32.toInt64 oor x) := by
  obtain ⟨v, hv, h1, h2⟩ := (inRange_iff x).1 h
  rw [toInt64_of_trunc oor x v hv h1 h2, hv]

theorem mul_inf_not_inRange (x : F32) : (F32.mul x (F32.inf false)).inRange = false := by
  cases x with
  | nan => rfl
  | inf a => rfl
  | fin a m e =>
    simp only [F32.mul]
    split_ifs <;> rfl

/-- One round never shrinks a positive interval, and makes it grow by `d`
when the exact product grows by `d`, as long as the product fits `int64`. -/
theorem toInt64_product_ge (oor : F32 → ℤ) (c : ℤ) (d : ℕ) (f : F32) (hc : 0 < c) (hd1 : d ≤ 1)
    (hf : f.isBinary32 = true) (hg : F32.gt f F32.one = true)
    (hd : d = 0 ∨ (c : ℚ) + d ≤ c * f.toRat)
    (hr : (F32.mul (F32.ofInt c) f).inRange = true) :
    c + d ≤ F32.toInt64 oor (F32.mul (F32.ofInt c) f) := by
  rcases gt_one_cases f hg with rfl | ⟨m, e, rfl, h1⟩
  · rw [mul_inf_not_inRange] at hr
    exact absurd hr (by simp)
  · obtain ⟨n, hn⟩ : ∃ n : ℕ, c = (n : ℤ) := ⟨c.toNat, by omega⟩
    subst hn
    have hn0 : 0 < n := by exact_mod_cast hc
    have hnq : (0 : ℚ) ≤ (n : ℚ) := Nat.cast_nonneg _
    have hd2 : ((n : ℚ)) + d ≤ n * ((m : ℚ) * 2 ^ e) := by
      rcases hd with h0 | h0
      · subst h0
        simp only [Nat.cast_zero, add_zero]
        calc (n : ℚ) = n * 1 := by ring
          _ ≤ n * ((m : ℚ) * 2 ^ e) := mul_le_mul_of_nonneg_left h1.le hnq
      · simpa [F32.toRat, F32.signed] using h0
    have hv := toInt64_of_inRange oor _ hr
    simp only [F32.isBinary32, Bool.and_eq_true, decide_eq_true_eq] at hf
    have := trunc_product_ge n d m e hn0 hd1 hf.1.1 hf.1.2 h1 hd2 _ hv
    exact_mod_cast this

/-! Section: Channels and the loop of `run` -/

theorem set_self {α : Type} (l : List α) :
    ∀ (i : Nat) (a : α), l[i]? = some a → l.set i a = l := by
  induction l with
  | nil => intro i a _; simp
  | cons x xs ih =>
    intro i a h
    cases i with
    | zero => simp at h; simp [h]
    | succ j => simp at h; simp [ih j a h]

theorem get_set_same {α : Type} (l : List α) :
    ∀ (i : Nat) (a b : α), l[i]? = some a → (l.set i b)[i]? = some b := by
  induction l with
  | nil => intro i a b h; simp at h
  | cons x xs ih =>
    intro i a b h
    cases i with
    | zero => simp
    | succ j => simp at h; simpa using ih j a b h

theorem get_append_len {α : Type} (l : List α) (a b : α) :
    (l ++ [a, b])[l.length]? = some a := by
  induction l with
  | nil => simp
  | cons x xs ih => simpa using ih

theorem gt_one_not_le (f : F32) (h : F32.gt f F32.one = true) : F32.le f F32.one = false := by
  simp only [F32.gt, Bool.and_eq_true, Bool.not_eq_true'] at h
  exact h.2

/-- On an open channel `tick` stores a pulse when there is room and changes
nothing otherwise. -/
theorem tick_open (t : Ticker) (chans : List Chan) (ch : Chan) (hc : chans[t.c]? = some ch)
    (ho : ch.closed = false) (hl : ch.len ≤ ch.cap) :
    t.tick chans = some (chans.set t.c { ch with len := Nat.min (ch.len + 1) ch.cap }) := by
  obtain ⟨cap, len, closed⟩ := ch
  simp only at ho hl
  subst ho
  unfold Ticker.tick Chan.send
  rw [hc]
  simp only [Bool.false_eq_true, if_false]
  by_cases h : len < cap
  · have e : Nat.min (len + 1) cap = len + 1 := Nat.min_eq_left h
    simp [h, e]
  · have e : Nat.min (len + 1) cap = len := by
      have : cap = len := by omega
      rw [this]
      exact Nat.min_eq_right (Nat.le_succ _)
    simp only [h, if_false, e]
    rw [set_self chans t.c _ hc]

theorem after_c (oor : F32 → ℤ) (t : Ticker) (n : ℕ) : (t.after oor n).c = t.c := by
  induction n with
  | zero => rfl
  | succ k ih => simpa [Ticker.after] using ih

theorem after_max (oor : F32 → ℤ) (t : Ticker) (n : ℕ) : (t.after oor n).max = t.max := by
  induction n with
  | zero => rfl
  | succ k ih => simpa [Ticker.after] using ih

theorem after_min (oor : F32 → ℤ) (t : Ticker) (n : ℕ) : (t.after oor n).min = t.min := by
  induction n with
  | zero => rfl
  | succ k ih => simpa [Ticker.after] using ih

theorem after_factor (oor : F32 → ℤ) (t : Ticker) (n : ℕ) :
    (t.after oor n).factor = t.factor := by
  induction n with
  | zero => rfl
  | succ k ih => simpa [Ticker.after] using ih

theorem after_succ_left (oor : F32 → ℤ) (t : Ticker) (n : ℕ) :
    t.after oor (n + 1) = Ticker.after oor { t with current := t.newTime oor } n := by
  induction n with
  | zero => rfl
  | succ k ih =>
    rw [Ticker.after, ih]
    rfl

/-- With its channel open, `run` goes through any number of timer rounds without
returning or panicking; the ticker fields are those of `after` and the slot
holds the pulses sent so far, at most as many as its capacity. -/
theorem run_timers (oor : F32 → ℤ) (n : ℕ) :
    ∀ (t : Ticker) (chans : List Chan) (ch : Chan), chans[t.c]? = some ch →
      ch.closed = false → ch.len ≤ ch.cap →
      t.run oor (List.replicate n Ticker.Wake.timer) chans =
        some (t.after oor n,
          chans.set t.c { ch with len := Nat.min (ch.len + n) ch.cap }, false) := by
  induction n with
  | zero =>
    intro t chans ch hc _ hl
    have e : Nat.min (ch.len + 0) ch.cap = ch.len := Nat.min_eq_left hl
    simp only [List.replicate, Ticker.run, Ticker.after, e]
    rw [set_self chans t.c _ hc]
  | succ k ih =>
    intro t chans ch hc ho hl
    simp only [List.replicate, Ticker.run]
    rw [tick_open t chans ch hc ho hl]
    simp only
    have hc2 : (chans.set t.c { ch with len := Nat.min (ch.len + 1) ch.cap })[t.c]? =
        some { ch with len := Nat.min (ch.len + 1) ch.cap } := get_set_same chans t.c ch _ hc
    have hl2 : Nat.min (ch.len + 1) ch.cap ≤ ch.cap := Nat.min_le_right _ _
    have := ih { t with current := t.newTime oor } _ _ hc2 ho hl2
    rw [this, after_succ_left, List.set_set]
    have e : Nat.min (Nat.min (ch.len + 1) ch.cap + k) ch.cap = Nat.min (ch.len + (k + 1)) ch.cap := by
      simp only [Nat.min_def]
      split_ifs <;> omega
    simp only [e]

/-- What `NewTicker` returns on valid arguments. -/
theorem NewTicker_valid (fmtDuration : ℤ → String) (rt : Runtime) (min max : ℤ) (factor : F32)
    (hv : ValidArgs min max factor) :
    ∃ t : Ticker,
      t = { C := rt.chans.length, c := rt.chans.length, min := min, max := max,
            factor := factor, current := min, shutChan := rt.chans.length + 1 } ∧
      NewTicker fmtDuration rt min max factor =
        (⟨some t, none⟩,
          { chans := rt.chans ++ [Chan.make 1, Chan.make 0], tasks := rt.tasks ++ [t] }) := by
  obtain ⟨h1, h2, h3⟩ := hv
  refine ⟨_, rfl, ?_⟩
  unfold NewTicker
  have h4 : ¬ (min ≤ 0) := by omega
  have h5 : ¬ (max < min ∧ max ≠ 0) := by omega
  simp only [h4, h5, if_false, gt_one_not_le factor h3, Bool.false_eq_true]

theorem after_eq_self (oor : F32 → ℤ) (t : Ticker) (h : t.newTime oor = t.current) (n : ℕ) :
    t.after oor n = t := by
  induction n with
  | zero => rfl
  | succ k ih =>
    rw [Ticker.after, ih]
    simp only [h]

theorem newTime_le_max (oor : F32 → ℤ) (t : Ticker) (h : 0 < t.max) : t.newTime oor ≤ t.max := by
  unfold Ticker.newTime
  simp only
  split_ifs with h1
  · exact le_rfl
  · simp only [h, true_and, not_lt] at h1
    exact h1

/-- One round, for a positive interval and a product that fits `int64`: either
the new value is the ceiling, which the converted product exceeded, or it is the
converted product, at least the old interval plus `d`. -/
theorem newTime_cases (oor : F32 → ℤ) (t : Ticker) (d : ℕ) (hc : 0 < t.current) (hd1 : d ≤ 1)
    (hb : t.factor.isBinary32 = true) (hg : F32.gt t.factor F32.one = true)
    (hd : d = 0 ∨ (t.current : ℚ) + d ≤ t.current * t.factor.toRat)
    (hr : t.product.inRange = true) :
    (0 < t.max ∧ t.current + d ≤ F32.toInt64 oor t.product ∧
        t.max < F32.toInt64 oor t.product ∧ t.newTime oor = t.max) ∨
      (¬ (0 < t.max ∧ t.max < F32.toInt64 oor t.product) ∧
        t.newTime oor = F32.toInt64 oor t.product ∧ t.current + d ≤ t.newTime oor) := by
  have hge := toInt64_product_ge oor t.current d t.factor hc hd1 hb hg hd hr
  unfold Ticker.newTime
  simp only
  by_cases h1 : 0 < t.max ∧ t.max < F32.toInt64 oor t.product
  · left
    exact ⟨h1.1, hge, h1.2, by rw [if_pos h1]⟩
  · right
    refine ⟨h1, by rw [if_neg h1], ?_⟩
    rw [if_neg h1]
    exact hge

theorem after_le_max (oor : F32 → ℤ) (t : Ticker) (hm : 0 < t.max) (hc : t.current ≤ t.max)
    (n : ℕ) : (t.after oor n).current ≤ t.max := by
  cases n with
  | zero => exact hc
  | succ k =>
    have := newTime_le_max oor (t.after oor k) (by rw [after_max]; exact hm)
    rw [after_max] at this
    exact this

theorem after_ge_min (oor : F32 → ℤ) (t : Ticker) (hmin : 0 < t.min) (hc : t.min ≤ t.current)
    (hmax : t.max = 0 ∨ t.min ≤ t.max) (hb : t.factor.isBinary32 = true)
    (hg : F32.gt t.factor F32.one = true) :
    ∀ n : ℕ, (∀ k < n, (t.after oor k).product.inRange = true) →
      t.min ≤ (t.after oor n).current := by
  intro n
  induction n with
  | zero => intro _; exact hc
  | succ k ih =>
    intro hr
    have hk := ih (fun j hj => hr j (Nat.lt_succ_of_lt hj))
    have hpos : 0 < (t.after oor k).current := lt_of_lt_of_le hmin hk
    have := newTime_cases oor (t.after oor k) 0 hpos (by omega) (by rw [after_factor]; exact hb)
      (by rw [after_factor]; exact hg) (Or.inl rfl) (hr k (Nat.lt_succ_self k))
    rw [after_max] at this
    show t.min ≤ (t.after oor k).newTime oor
    rcases this with ⟨h1, -, -, h4⟩ | ⟨-, -, h3⟩
    · rw [h4]
      omega
    · simp only [Nat.cast_zero, add_zero] at h3
      omega

/-- A round that starts at the ceiling ends at the ceiling, when the product
`float32(max) * factor` fits `int64`. -/
theorem newTime_at_max (oor : F32 → ℤ) (t : Ticker) (hmax : 0 < t.max) (hcur : t.current = t.max)
    (hb : t.factor.isBinary32 = true) (hg : F32.gt t.factor F32.one = true)
    (hr : (F32.mul (F32.ofInt t.max) t.factor).inRange = true) : t.newTime oor = t.max := by
  have hr2 : t.product.inRange = true := by
    unfold Ticker.product
    rw [hcur]
    exact hr
  rcases newTime_cases oor t 0 (by rw [hcur]; exact hmax) (by omega) hb hg (Or.inl rfl) hr2
    with ⟨-, -, -, h4⟩ | ⟨h1, h2, h3⟩
  · exact h4
  · simp only [Nat.cast_zero, add_zero] at h3
    rw [h2] at h3 ⊢
    have : ¬ (t.max < F32.toInt64 oor t.product) := fun h => h1 ⟨hmax, h⟩
    omega

/-- The test `factor <= 1` is false exactly for the factors above one and for NaN. -/
theorem le_one_false_iff (f : F32) :
    F32.le f F32.one = false ↔ (F32.gt f F32.one = true ∨ f = F32.nan) := by
  cases f with
  | nan => simp [F32.le]
  | inf neg => cases neg <;> simp [F32.gt, F32.le, F32.one]
  | fin neg m e =>
    simp only [F32.gt, F32.le, F32.one, Bool.and_eq_true, decide_eq_true_eq, Bool.not_eq_true',
      decide_eq_false_iff_not, not_le, or_false, reduceCtorEq]
    constructor
    · intro h
      exact ⟨le_of_lt h, h⟩
    · intro h
      exact h.2

/-- The call of `NewTicker` succeeds exactly when none of its three checks fires, and a
failing call returns no ticker, an error, and leaves channels and goroutines as
they were. -/
theorem NewTicker_spec (fmtDuration : ℤ → String) (rt : Runtime) (min max : ℤ) (factor : F32) :
    (((NewTicker fmtDuration rt min max factor).1.ticker ≠ none ∧
        (NewTicker fmtDuration rt min max factor).1.err = none) ↔
      (0 < min ∧ (F32.gt factor F32.one = true ∨ factor = F32.nan) ∧ (max = 0 ∨ min ≤ max))) ∧
    (¬ (0 < min ∧ (F32.gt factor F32.one = true ∨ factor = F32.nan) ∧ (max = 0 ∨ min ≤ max)) →
      (NewTicker fmtDuration rt min max factor).1.ticker = none ∧
      (NewTicker fmtDuration rt min max factor).1.err ≠ none ∧
      (NewTicker fmtDuration rt min max factor).2 = rt) := by
  rw [← le_one_false_iff]
  unfold NewTicker
  by_cases h1 : min ≤ 0
  · rw [if_pos h1]
    refine ⟨⟨fun h => ?_, fun h => ?_⟩, fun _ => ?_⟩
    · simp at h
    · omega
    · simp
  · rw [if_neg h1]
    by_cases h2 : max < min ∧ max ≠ 0
    · rw [if_pos h2]
      refine ⟨⟨fun h => ?_, fun h => ?_⟩, fun _ => ?_⟩
      · simp at h
      · omega
      · simp
    · rw [if_neg h2]
      by_cases h3 : F32.le factor F32.one = true
      · rw [if_pos h3]
        refine ⟨⟨fun h => ?_, fun h => ?_⟩, fun _ => ?_⟩
        · simp at h
        · rw [h.2.1] at h3
          exact absurd h3 (by simp)
        · simp
      · rw [if_neg h3]
        have h3f : F32.le factor F32.one = false := by simpa using h3
        refine ⟨⟨fun _ => ⟨by omega, h3f, by omega⟩, fun _ => ⟨by simp, rfl⟩⟩, fun h => ?_⟩
        exact absurd ⟨by omega, h3f, by omega⟩ h

/-- C1, evaluated at a NaN factor: `NewTicker(1, 0, NaN)` returns a ticker and
a nil error and starts a goroutine, although NaN is not greater than one. -/
theorem NewTicker_nan_factor (fmtDuration : ℤ → String) (rt : Runtime) :
    F32.gt F32.nan F32.one = false ∧
    (NewTicker fmtDuration rt 1 0 F32.nan).1.ticker ≠ none ∧
    (NewTicker fmtDuration rt 1 0 F32.nan).1.err = none ∧
    (NewTicker fmtDuration rt 1 0 F32.nan).2.tasks.length = rt.tasks.length + 1 ∧
    (NewTicker fmtDuration rt 1 0 F32.nan).2.chans.length = rt.chans.length + 2 := by
  refine ⟨rfl, ?_, ?_, ?_, ?_⟩ <;> simp [NewTicker, F32.le]

/-- C9: on valid arguments `NewTicker` returns a ticker with `current = min`
that stores `min`, `max` and `factor` as given, whose `C` is the channel `c`,
a fresh open channel of capacity one holding nothing, so that a read finds no
pulse; its goroutine is registered and, before any timer fires, `run` has
sent nothing and changed nothing. -/
theorem NewTicker_initial_state (fmtDuration : ℤ → String) (rt : Runtime) (oor : F32 → ℤ)
    (min max : ℤ) (factor : F32) (hv : ValidArgs min max factor) :
    ∃ t : Ticker,
      (NewTicker fmtDuration rt min max factor).1 = ⟨some t, none⟩ ∧
      t.current = min ∧ t.min = min ∧ t.max = max ∧ t.factor = factor ∧ t.C = t.c ∧
      (NewTicker fmtDuration rt min max factor).2.chans[t.c]? =
        some { cap := 1, len := 0, closed := false } ∧
      (NewTicker fmtDuration rt min max factor).2.chans.length = rt.chans.length + 2 ∧
      t.c = rt.chans.length ∧
      t.read (NewTicker fmtDuration rt min max factor).2.chans =
        (RecvResult.wouldBlock, (NewTicker fmtDuration rt min max factor).2.chans) ∧
      (NewTicker fmtDuration rt min max factor).2.tasks = rt.tasks ++ [t] ∧
      t.run oor [] (NewTicker fmtDuration rt min max factor).2.chans =
        some (t, (NewTicker fmtDuration rt min max factor).2.chans, false) := by
  obtain ⟨t, ht, hN⟩ := NewTicker_valid fmtDuration rt min max factor hv
  have hget : (rt.chans ++ [Chan.make 1, Chan.make 0])[t.c]? = some (Chan.make 1) := by
    rw [ht]
    exact get_append_len rt.chans _ _
  have hC : t.C = t.c := by rw [ht]
  refine ⟨t, by rw [hN], by rw [ht], by rw [ht], by rw [ht], by rw [ht], hC, ?_, ?_, by rw [ht],
    ?_, by rw [hN], ?_⟩
  · rw [hN]
    exact hget
  · rw [hN]
    simp
  · rw [hN]
    unfold Ticker.read
    rw [hC]
    simp only [hget]
    rfl
  · rw [hN]
    rfl

/-- Witness of C9 at `NewTicker(1ms, 5ms, 1.5)` in an empty runtime. -/
theorem NewTicker_initial_state_witness :
    ValidArgs 1000000 5000000 (F32.fin false 3 (-1)) ∧
    ∃ t : Ticker,
      (NewTicker (fun _ => "") ⟨[], []⟩ 1000000 5000000 (F32.fin false 3 (-1))).1 =
        ⟨some t, none⟩ ∧
      t.current = 1000000 ∧ t.min = 1000000 ∧ t.max = 5000000 ∧
      t.factor = F32.fin false 3 (-1) ∧ t.C = t.c ∧
      (NewTicker (fun _ => "") ⟨[], []⟩ 1000000 5000000 (F32.fin false 3 (-1))).2.chans[t.c]? =
        some { cap := 1, len := 0, closed := false } ∧
      (NewTicker (fun _ => "") ⟨[], []⟩ 1000000 5000000
        (F32.fin false 3 (-1))).2.chans.length = ([] : List Chan).length + 2 ∧
      t.c = ([] : List Chan).length ∧
      t.read (NewTicker (fun _ => "") ⟨[], []⟩ 1000000 5000000 (F32.fin false 3 (-1))).2.chans =
        (RecvResult.wouldBlock,
          (NewTicker (fun _ => "") ⟨[], []⟩ 1000000 5000000 (F32.fin false 3 (-1))).2.chans) ∧
      (NewTicker (fun _ => "") ⟨[], []⟩ 1000000 5000000 (F32.fin false 3 (-1))).2.tasks =
        [] ++ [t] ∧
      t.run amd64 []
          (NewTicker (fun _ => "") ⟨[], []⟩ 1000000 5000000 (F32.fin false 3 (-1))).2.chans =
        some (t,
          (NewTicker (fun _ => "") ⟨[], []⟩ 1000000 5000000 (F32.fin false 3 (-1))).2.chans,
          false) :=
  ⟨⟨by decide, by decide, by decide⟩,
    NewTicker_initial_state (fun _ => "") ⟨[], []⟩ amd64 1000000 5000000 (F32.fin false 3 (-1))
      ⟨by decide, by decide, by decide⟩⟩

/-- C10: `MustNewTicker` panics exactly when `NewTicker` returns an error, the
panic message being `backoff timer init error: ` followed by the message of
that error; otherwise it returns the pointer `NewTicker` returned.  Channels and
goroutines are in both cases those `NewTicker` left. -/
theorem MustNewTicker_spec (fmtDuration : ℤ → String) (rt : Runtime) (min max : ℤ)
    (factor : F32) :
    ((∃ msg, (MustNewTicker fmtDuration rt min max factor).1 = MustResult.panicked msg) ↔
      (NewTicker fmtDuration rt min max factor).1.err ≠ none) ∧
    (∀ e, (NewTicker fmtDuration rt min max factor).1.err = some e →
      (MustNewTicker fmtDuration rt min max factor).1 =
        MustResult.panicked ("backoff timer init error: " ++ e)) ∧
    ((NewTicker fmtDuration rt min max factor).1.err = none →
      (MustNewTicker fmtDuration rt min max factor).1 =
        MustResult.returned (NewTicker fmtDuration rt min max factor).1.ticker) ∧
    (MustNewTicker fmtDuration rt min max factor).2 =
      (NewTicker fmtDuration rt min max factor).2 := by
  unfold MustNewTicker
  rcases hN : NewTicker fmtDuration rt min max factor with ⟨⟨tk, err⟩, rt2⟩
  cases err with
  | none => simp
  | some e => simp

/-! Section: Delivery slot and shutdown -/

/-- C5: with `c` an open channel of capacity one holding at most one pulse,
`tick` completes (it neither blocks nor panics), puts exactly one pulse into an
empty slot and leaves a full slot unchanged; after any positive number of
rounds of `run` without a read the slot holds exactly one pulse, a read yields
that pulse and empties the slot, and the next read finds nothing. -/
theorem tick_single_slot (oor : F32 → ℤ) (t : Ticker) (chans : List Chan) (ch : Chan) (n : ℕ)
    (hc : chans[t.c]? = some ch) (hC : t.C = t.c) (hcap : ch.cap = 1)
    (ho : ch.closed = false) (hl : ch.len ≤ 1) (hn : 1 ≤ n) :
    (∃ chans1, t.tick chans = some chans1 ∧
      (ch.len = 0 → chans1 = chans.set t.c { ch with len := 1 }) ∧
      (ch.len = 1 → chans1 = chans)) ∧
    ∃ u chans2, t.run oor (List.replicate n Ticker.Wake.timer) chans = some (u, chans2, false) ∧
      chans2[t.c]? = some { ch with len := 1 } ∧
      t.read chans2 = (RecvResult.value { ch with len := 0 },
        chans2.set t.C { ch with len := 0 }) ∧
      t.read (chans2.set t.C { ch with len := 0 }) =
        (RecvResult.wouldBlock, chans2.set t.C { ch with len := 0 }) := by
  obtain ⟨cap, len, closed⟩ := ch
  simp only at hcap ho hl
  subst hcap ho
  have hl1 : len ≤ (⟨1, len, false⟩ : Chan).cap := hl
  constructor
  · refine ⟨_, tick_open t chans _ hc rfl hl1, ?_, ?_⟩
    · intro h0
      simp only at h0
      subst h0
      rfl
    · intro h1
      simp only at h1
      subst h1
      exact set_self chans t.c _ hc
  · have hrun := run_timers oor n t chans _ hc rfl hl1
    have hmin : Nat.min (len + n) 1 = 1 := Nat.min_eq_right (by omega)
    simp only [hmin] at hrun
    have hget : (chans.set t.c (⟨1, 1, false⟩ : Chan))[t.c]? = some ⟨1, 1, false⟩ :=
      get_set_same chans t.c _ _ hc
    refine ⟨_, _, hrun, hget, ?_, ?_⟩
    · unfold Ticker.read
      rw [hC, hget]
      rfl
    · have hget2 : ((chans.set t.c (⟨1, 1, false⟩ : Chan)).set t.C (⟨1, 0, false⟩ : Chan))[t.C]? =
          some ⟨1, 0, false⟩ := by
        rw [hC]
        exact get_set_same _ t.c _ _ hget
      unfold Ticker.read
      rw [hget2]
      rfl

/-- Witness of C5: the ticker of `NewTicker(1ms, 0, 2)` in an empty runtime,
three rounds without a read. -/
theorem tick_single_slot_witness :
    (∃ chans1, (⟨0, 0, 1000000, 0, F32.fin false 2 0, 1000000, 1⟩ : Ticker).tick
        [Chan.make 1, Chan.make 0] = some chans1 ∧
      ((Chan.make 1).len = 0 →
        chans1 = [Chan.make 1, Chan.make 0].set 0 { Chan.make 1 with len := 1 }) ∧
      ((Chan.make 1).len = 1 → chans1 = [Chan.make 1, Chan.make 0])) ∧
    ∃ u chans2, (⟨0, 0, 1000000, 0, F32.fin false 2 0, 1000000, 1⟩ : Ticker).run amd64
        (List.replicate 3 Ticker.Wake.timer) [Chan.make 1, Chan.make 0] =
          some (u, chans2, false) ∧
      chans2[0]? = some { Chan.make 1 with len := 1 } ∧
      (⟨0, 0, 1000000, 0, F32.fin false 2 0, 1000000, 1⟩ : Ticker).read chans2 =
        (RecvResult.value { Chan.make 1 with len := 0 },
          chans2.set 0 { Chan.make 1 with len := 0 }) ∧
      (⟨0, 0, 1000000, 0, F32.fin false 2 0, 1000000, 1⟩ : Ticker).read
          (chans2.set 0 { Chan.make 1 with len := 0 }) =
        (RecvResult.wouldBlock, chans2.set 0 { Chan.make 1 with len := 0 }) :=
  tick_single_slot amd64 ⟨0, 0, 1000000, 0, F32.fin false 2 0, 1000000, 1⟩
    [Chan.make 1, Chan.make 0] (Chan.make 1) 3 rfl rfl rfl rfl (by decide) (by decide)

/-- After `Stop` has been served, reads of `C` first deliver what the slot still
holds: with an unread pulse the first read returns it with `ok = true` and only
the second is exhausted; with an empty slot the first read is exhausted. -/
theorem read_after_shut (oor : F32 → ℤ) (t : Ticker) (chans : List Chan) (ch : Chan)
    (ws : List Ticker.Wake) (hc : chans[t.c]? = some ch) (hC : t.C = t.c)
    (ho : ch.closed = false) :
    t.run oor (Ticker.Wake.shut :: ws) chans =
        some (t, chans.set t.c { ch with closed := true }, true) ∧
    (ch.len = 0 → t.read (chans.set t.c { ch with closed := true }) =
      (RecvResult.exhausted, chans.set t.c { ch with closed := true })) ∧
    (0 < ch.len → t.read (chans.set t.c { ch with closed := true }) =
      (RecvResult.value { ch with closed := true, len := ch.len - 1 },
        (chans.set t.c { ch with closed := true }).set t.C
          { ch with closed := true, len := ch.len - 1 })) := by
  have hget : (chans.set t.c { ch with closed := true })[t.c]? =
      some { ch with closed := true } := get_set_same chans t.c _ _ hc
  refine ⟨?_, ?_, ?_⟩
  · simp only [Ticker.run, Ticker.closeC, hc, Chan.close, ho, Bool.false_eq_true, if_false]
  · intro h0
    unfold Ticker.read
    rw [hC, hget]
    simp [Chan.recv, h0]
  · intro h0
    unfold Ticker.read
    rw [hC, hget]
    simp [Chan.recv, h0]

/-- C4, evaluated with a pulse left in the slot: after `NewTicker(1ms, 5ms, 1.1)`
one timer round passes unread, `Stop` is served and `run` returns closing `c`;
the next read of `C` yields the buffered pulse with `ok = true`, and only the
read after that is exhausted. -/
theorem read_after_stop_yields_pulse :
    NewTicker (fun _ => "") ⟨[], []⟩ 1000000 5000000 (F32.fin false 9227469 (-23)) =
      (⟨some ⟨0, 0, 1000000, 5000000, F32.fin false 9227469 (-23), 1000000, 1⟩, none⟩,
        ⟨[Chan.make 1, Chan.make 0],
          [⟨0, 0, 1000000, 5000000, F32.fin false 9227469 (-23), 1000000, 1⟩]⟩) ∧
    (⟨0, 0, 1000000, 5000000, F32.fin false 9227469 (-23), 1000000, 1⟩ : Ticker).Stop true =
      some Ticker.Wake.shut ∧
    (⟨0, 0, 1000000, 5000000, F32.fin false 9227469 (-23), 1000000, 1⟩ : Ticker).run amd64
        [Ticker.Wake.timer, Ticker.Wake.shut] [Chan.make 1, Chan.make 0] =
      some (⟨0, 0, 1000000, 5000000, F32.fin false 9227469 (-23), 1100000, 1⟩,
        [⟨1, 1, true⟩, Chan.make 0], true) ∧
    (⟨0, 0, 1000000, 5000000, F32.fin false 9227469 (-23), 1100000, 1⟩ : Ticker).read
        [⟨1, 1, true⟩, Chan.make 0] =
      (RecvResult.value ⟨1, 0, true⟩, [⟨1, 0, true⟩, Chan.make 0]) ∧
    (⟨0, 0, 1000000, 5000000, F32.fin false 9227469 (-23), 1100000, 1⟩ : Ticker).read
        [⟨1, 0, true⟩, Chan.make 0] =
      (RecvResult.exhausted, [⟨1, 0, true⟩, Chan.make 0]) := by
  refine ⟨?_, ?_, ?_, ?_, ?_⟩ <;> decide

/-! Section: Bounds on the interval -/

/-- Running `n` timer rounds on the ticker `NewTicker` returned. -/
theorem NewTicker_run_timers (fmtDuration : ℤ → String) (rt : Runtime) (oor : F32 → ℤ)
    (min max : ℤ) (factor : F32) (t : Ticker) (n : ℕ) (hv : ValidArgs min max factor)
    (ht : (NewTicker fmtDuration rt min max factor).1.ticker = some t) :
    (t.min = min ∧ t.max = max ∧ t.factor = factor ∧ t.current = min) ∧
    ∃ chans, t.run oor (List.replicate n Ticker.Wake.timer)
      (NewTicker fmtDuration rt min max factor).2.chans = some (t.after oor n, chans, false) := by
  obtain ⟨t0, ht0, hN⟩ := NewTicker_valid fmtDuration rt min max factor hv
  rw [hN] at ht ⊢
  simp only [Option.some.injEq] at ht
  subst ht
  have hget : (rt.chans ++ [Chan.make 1, Chan.make 0])[t0.c]? = some (Chan.make 1) := by
    rw [ht0]
    exact get_append_len rt.chans _ _
  exact ⟨by rw [ht0]; exact ⟨rfl, rfl, rfl, rfl⟩, _, run_timers oor n t0 _ _ hget rfl (by decide)⟩

/-- C2 (amended): for valid arguments and a `float32` factor, `run` completes any
number `n` of timer rounds on the ticker `NewTicker` returned, reaching the
state `t.after oor n`; the interval then is at most `max` when `max > 0`, and
it is at least `min` provided that in each of the `n` rounds the product
`float32(current) * factor` was finite with a truncation inside `int64`. -/
theorem interval_bounds (fmtDuration : ℤ → String) (rt : Runtime) (oor : F32 → ℤ)
    (min max : ℤ) (factor : F32) (t : Ticker) (n : ℕ) (hv : ValidArgs min max factor)
    (hb : factor.isBinary32 = true)
    (ht : (NewTicker fmtDuration rt min max factor).1.ticker = some t) :
    (∃ chans, t.run oor (List.replicate n Ticker.Wake.timer)
        (NewTicker fmtDuration rt min max factor).2.chans =
          some (t.after oor n, chans, false)) ∧
      (0 < max → (t.after oor n).current ≤ max) ∧
      ((∀ k < n, (t.after oor k).product.inRange = true) → min ≤ (t.after oor n).current) := by
  obtain ⟨⟨h1, h2, h3, h4⟩, hrun⟩ :=
    NewTicker_run_timers fmtDuration rt oor min max factor t n hv ht
  obtain ⟨hv1, hv2, hv3⟩ := hv
  refine ⟨hrun, ?_, ?_⟩
  · intro hm
    have := after_le_max oor t (by rw [h2]; exact hm) (by rw [h2, h4]; omega) n
    rw [h2] at this
    exact this
  · intro hr
    have := after_ge_min oor t (by rw [h1]; exact hv1) (by rw [h1, h4])
      (by rw [h1, h2]; exact hv2) (by rw [h3]; exact hb) (by rw [h3]; exact hv3) n hr
    rw [h1] at this
    exact this

/-- Witness of C2: `NewTicker(2ms, 200ms, 2)` in an empty runtime, ten rounds,
none of which leaves `int64`; the interval is within both bounds. -/
theorem interval_bounds_witness :
    ValidArgs 2000000 200000000 (F32.fin false 2 0) ∧
    (∃ chans, (⟨0, 0, 2000000, 200000000, F32.fin false 2 0, 2000000, 1⟩ : Ticker).run amd64
        (List.replicate 10 Ticker.Wake.timer)
        (NewTicker (fun _ => "") ⟨[], []⟩ 2000000 200000000 (F32.fin false 2 0)).2.chans =
          some ((⟨0, 0, 2000000, 200000000, F32.fin false 2 0, 2000000, 1⟩ : Ticker).after
            amd64 10, chans, false)) ∧
    ((⟨0, 0, 2000000, 200000000, F32.fin false 2 0, 2000000, 1⟩ : Ticker).after
      amd64 10).current ≤ 200000000 ∧
    2000000 ≤ ((⟨0, 0, 2000000, 200000000, F32.fin false 2 0, 2000000, 1⟩ : Ticker).after
      amd64 10).current := by
  refine ⟨⟨by decide, by decide, by decide⟩, ?_⟩
  obtain ⟨h1, h2, h3⟩ :=
    interval_bounds (fun _ => "") ⟨[], []⟩ amd64 2000000 200000000 (F32.fin false 2 0)
      ⟨0, 0, 2000000, 200000000, F32.fin false 2 0, 2000000, 1⟩ 10
      ⟨by decide, by decide, by decide⟩ (by decide) (by decide)
  exact ⟨h1, h2 (by decide), h3 (by decide)⟩

/-- Counterexample to C2 as stated, on amd64: `NewTicker(1s, 0, 1e10)` and
`NewTicker(1s, MaxInt64, 1e10)` are valid, and the first product `1e9 * 1e10`
does not fit `int64`; the conversion delivers `MinInt64`, so after one round the
interval is below `min`. -/
theorem interval_bounds_counterexample :
    ValidArgs 1000000000 0 (F32.fin false 9765625 10) ∧
    ValidArgs 1000000000 9223372036854775807 (F32.fin false 9765625 10) ∧
    (F32.fin false 9765625 10).isBinary32 = true ∧
    (F32.fin false 9765625 10).toRat = 10000000000 ∧
    (NewTicker (fun _ => "") ⟨[], []⟩ 1000000000 0 (F32.fin false 9765625 10)).1.ticker =
      some ⟨0, 0, 1000000000, 0, F32.fin false 9765625 10, 1000000000, 1⟩ ∧
    (⟨0, 0, 1000000000, 0, F32.fin false 9765625 10, 1000000000, 1⟩ : Ticker).run amd64
        [Ticker.Wake.timer]
        (NewTicker (fun _ => "") ⟨[], []⟩ 1000000000 0 (F32.fin false 9765625 10)).2.chans =
      some (⟨0, 0, 1000000000, 0, F32.fin false 9765625 10, -9223372036854775808, 1⟩,
        [⟨1, 1, false⟩, Chan.make 0], false) ∧
    (NewTicker (fun _ => "") ⟨[], []⟩ 1000000000 9223372036854775807
        (F32.fin false 9765625 10)).1.ticker =
      some ⟨0, 0, 1000000000, 9223372036854775807, F32.fin false 9765625 10, 1000000000, 1⟩ ∧
    (⟨0, 0, 1000000000, 9223372036854775807, F32.fin false 9765625 10, 1000000000, 1⟩ :
        Ticker).run amd64 [Ticker.Wake.timer]
        (NewTicker (fun _ => "") ⟨[], []⟩ 1000000000 9223372036854775807
          (F32.fin false 9765625 10)).2.chans =
      some (⟨0, 0, 1000000000, 9223372036854775807, F32.fin false 9765625 10,
        -9223372036854775808, 1⟩, [⟨1, 1, false⟩, Chan.make 0], false) ∧
    ¬ ((1000000000 : ℤ) ≤ -9223372036854775808) := by
  refine ⟨⟨by decide, by decide, by decide⟩, ⟨by decide, by decide, by decide⟩, by decide, ?_,
    rfl, rfl, rfl, rfl, by decide⟩
  norm_num [F32.toRat, F32.signed]

/-! Section: Stability at the ceiling -/

/-- C6 (amended): let `max > 0`, the factor be a `float32` above one, and the
product `float32(max) * factor` be finite with a truncation inside `int64`.
If `current = max` before a round of `run`, then `current = max` after it and
after every later round. -/
theorem clamp_stable (oor : F32 → ℤ) (t : Ticker) (chans : List Chan) (ch : Chan) (n : ℕ)
    (hmax : 0 < t.max) (hcur : t.current = t.max) (hb : t.factor.isBinary32 = true)
    (hg : F32.gt t.factor F32.one = true)
    (hr : (F32.mul (F32.ofInt t.max) t.factor).inRange = true)
    (hc : chans[t.c]? = some ch) (ho : ch.closed = false) (hl : ch.len ≤ ch.cap) :
    t.newTime oor = t.max ∧
    ∃ u chans2, t.run oor (List.replicate n Ticker.Wake.timer) chans = some (u, chans2, false) ∧
      u.current = t.max := by
  have hstep := newTime_at_max oor t hmax hcur hb hg hr
  refine ⟨hstep, _, _, run_timers oor n t chans ch hc ho hl, ?_⟩
  rw [after_eq_self oor t (by rw [hstep, hcur]) n]
  exact hcur

/-- Witness of C6: the ticker of `NewTicker(2ms, 2ms, 10)`, five rounds. -/
theorem clamp_stable_witness :
    (⟨0, 0, 2000000, 2000000, F32.fin false 10 0, 2000000, 1⟩ : Ticker).newTime amd64 = 2000000 ∧
    ∃ u chans2, (⟨0, 0, 2000000, 2000000, F32.fin false 10 0, 2000000, 1⟩ : Ticker).run amd64
        (List.replicate 5 Ticker.Wake.timer) [Chan.make 1, Chan.make 0] =
          some (u, chans2, false) ∧
      u.current = 2000000 :=
  clamp_stable amd64 ⟨0, 0, 2000000, 2000000, F32.fin false 10 0, 2000000, 1⟩
    [Chan.make 1, Chan.make 0] (Chan.make 1) 5 (by decide) rfl (by decide) (by decide)
    (by decide) rfl rfl (by decide)

/-- Counterexample to C6 as stated, on amd64: `NewTicker(2 ^ 62 ns, 2 ^ 62 ns, 2)`
is valid and starts with `current = max`; the product `2 ^ 63` does not fit
`int64`, the conversion delivers `MinInt64`, which is not above `max`, so after
one round `current` is `MinInt64` instead of `max`. -/
theorem clamp_stable_counterexample :
    ValidArgs 4611686018427387904 4611686018427387904 (F32.fin false 2 0) ∧
    (F32.fin false 2 0).isBinary32 = true ∧
    (NewTicker (fun _ => "") ⟨[], []⟩ 4611686018427387904 4611686018427387904
        (F32.fin false 2 0)).1.ticker =
      some ⟨0, 0, 4611686018427387904, 4611686018427387904, F32.fin false 2 0,
        4611686018427387904, 1⟩ ∧
    (⟨0, 0, 4611686018427387904, 4611686018427387904, F32.fin false 2 0,
        4611686018427387904, 1⟩ : Ticker).run amd64 [Ticker.Wake.timer]
        (NewTicker (fun _ => "") ⟨[], []⟩ 4611686018427387904 4611686018427387904
          (F32.fin false 2 0)).2.chans =
      some (⟨0, 0, 4611686018427387904, 4611686018427387904, F32.fin false 2 0,
        -9223372036854775808, 1⟩, [⟨1, 1, false⟩, Chan.make 0], false) := by
  exact ⟨⟨by decide, by decide, by decide⟩, by decide, rfl, rfl⟩

/-! Section: Growth -/

end Backoff
